import Mathlib

/-!
# Verification of the numeric-text normalizers of PersonalProjectPython

Shallow embedding of `src/personal_project/cleaning.py`
(`_num_with_suffix_to_float`, `parse_price`, `extract_number`) and of
`src/personal_project/ml_pipeline.py` (`parse_price`, `extract_number`).

Embedding decisions:
* Python floats are modelled exactly: a value is `PyFloat.fin q` with `q : ℚ`
  (decimal-literal conversion is exact in this model), or one of the special
  values `nan` (also the `np.nan` Missing marker), `inf`, `ninf`.
* Strings are `List Char` (with `String` wrappers at the boundary); a raw
  pandas cell is `RawCell`: a string or a non-string value.
* The regular expressions of the source are embedded as hand-rolled matchers
  with Python `re` semantics (leftmost match, greedy with backtracking, which
  for these patterns collapses to the deterministic scans implemented below).
* `str.strip`, `str.isspace` and `\s` are modelled over the ASCII whitespace
  set; all inputs exercised by the source data are ASCII.
-/

namespace PP

/-!
Rational arithmetic helpers. The standard `Rat` operations are irreducible
in the kernel, so the executable definitions below use `mkRat`-based
operations; `qAdd_eq`, `qMul_eq`, `qDivNat_eq`, `qNeg_eq`, `qOfNat_eq`
identify them with the field operations of `ℚ`. -/

/-- Kernel-reducible embedding of a natural number into `ℚ`. -/
def qOfNat (n : ℕ) : ℚ := mkRat n 1

/-- Kernel-reducible addition on `ℚ`. -/
def qAdd (a b : ℚ) : ℚ := mkRat (a.num * b.den + b.num * a.den) (a.den * b.den)

/-- Kernel-reducible multiplication on `ℚ`. -/
def qMul (a b : ℚ) : ℚ := mkRat (a.num * b.num) (a.den * b.den)

/-- Kernel-reducible division of a rational by a natural number. -/
def qDivNat (a : ℚ) (n : ℕ) : ℚ := mkRat a.num (a.den * n)

/-- Kernel-reducible negation on `ℚ`. -/
def qNeg (a : ℚ) : ℚ := mkRat (-a.num) a.den

/-- The value space of CPython floats: NaN (which is also the `np.nan`
Missing marker), the two infinities, and finite values modelled exactly
as rationals. -/
inductive PyFloat where
  | nan : PyFloat
  | inf : PyFloat
  | ninf : PyFloat
  | fin : ℚ → PyFloat
  deriving DecidableEq, Repr

/-- A raw cell handed to the normalizers: either a Python `str` or any
non-string value (`None`, a number, ...), which `isinstance(s, str)` rejects. -/
inductive RawCell where
  | str : String → RawCell
  | nonStr : RawCell

/-- ASCII whitespace, the model of Python's `str.strip()` set and of `\s`. -/
def pyWs (c : Char) : Bool :=
  c = ' ' || c = '\t' || c = '\n' || c = '\r' || c = Char.ofNat 11 || c = Char.ofNat 12

/-- Model of Python `str.strip()`. -/
def stripList (cs : List Char) : List Char :=
  ((cs.dropWhile pyWs).reverse.dropWhile pyWs).reverse

/-- Model of `.replace(' ', '')`. -/
def removeSpaces (cs : List Char) : List Char := cs.filter (fun c => c ≠ ' ')

/-- Model of `re.sub(r"[,\$£€]", "", s)` in `cleaning.parse_price`. -/
def removeCurrency (cs : List Char) : List Char :=
  cs.filter (fun c => ¬ (c = ',' || c = '$' || c = '£' || c = '€'))

/-- Model of Python `s.split('-')` (keeps empty segments). -/
def splitHyphen : List Char → List (List Char)
  | [] => [[]]
  | c :: rest =>
    if c = '-' then [] :: splitHyphen rest
    else
      match splitHyphen rest with
      | g :: gs => (c :: g) :: gs
      | [] => [[c]]

/-- Big-endian decimal digit-list value, the exact value of `float` on a
digit string. -/
def digitsToNat (cs : List Char) : ℕ :=
  cs.foldl (fun a c => 10 * a + (c.toNat - 48)) 0

/-- Exact value of Python `float` on the regex group `d1` `[ '.' d2 ]`. -/
def numVal (d1 : List Char) (d2 : Option (List Char)) : ℚ :=
  qAdd (qOfNat (digitsToNat d1))
    (match d2 with
     | some f => mkRat (digitsToNat f) (10 ^ f.length)
     | none => 0)

/-- The suffix characters `[kKmM]` of the token grammar. -/
def isSufChar (c : Char) : Bool := c = 'k' || c = 'K' || c = 'm' || c = 'M'

/-- The multiplier applied for a matched magnitude suffix
(`num *= 1_000` for k/K, `num *= 1_000_000` for m/M). -/
def multOf : Option Char → ℚ
  | none => 1
  | some c => if c = 'k' || c = 'K' then 1000 else if c = 'm' || c = 'M' then 1000000 else 1

/-- Matcher for the number part `[0-9]*\.?[0-9]+` at the head of the input,
with Python `re` greedy/backtracking semantics. Returns the integer digits,
the fractional digits (when a consumed `'.'` is followed by at least one
digit) and the unconsumed rest. -/
def numAtParts (cs : List Char) : Option ((List Char × Option (List Char)) × List Char) :=
  let d1 := cs.takeWhile Char.isDigit
  let r1 := cs.dropWhile Char.isDigit
  match r1 with
  | '.' :: r2 =>
    let d2 := r2.takeWhile Char.isDigit
    if d2 = [] then
      if d1 = [] then none else some ((d1, none), r1)
    else
      some ((d1, some d2), r2.dropWhile Char.isDigit)
  | _ => if d1 = [] then none else some ((d1, none), r1)

/-- The source text of a matched number part. -/
def renderNum (d1 : List Char) (d2 : Option (List Char)) : List Char :=
  d1 ++ (match d2 with | some f => '.' :: f | none => [])

/-- Matcher for the anchored grammar `^([0-9]*\.?[0-9]+)\s*([kKmM]?)$` of
`_num_with_suffix_to_float`, returning the two capture groups. -/
def strictGroups (cs : List Char) :
    Option ((List Char × Option (List Char)) × Option Char) :=
  match numAtParts cs with
  | none => none
  | some (nd, rest) =>
    match rest.dropWhile pyWs with
    | [] => some (nd, none)
    | [c] => if isSufChar c then some (nd, some c) else none
    | _ => none

/-- One digit run of a Python float literal, with single underscores allowed
between digits (fuelled; fuel `cs.length` always suffices). -/
def udRun : ℕ → List Char → List Char × List Char
  | 0, cs => ([], cs)
  | _ + 1, [] => ([], [])
  | fuel + 1, c :: rest =>
    if c.isDigit then
      match rest with
      | '_' :: d :: r2 =>
        if d.isDigit then
          match udRun fuel (d :: r2) with
          | (ds, rr) => (c :: ds, rr)
        else ([c], rest)
      | _ =>
        match udRun fuel rest with
        | (ds, rr) => (c :: ds, rr)
    else ([], c :: rest)

/-- The decimal-literal part of Python `float(s)` after sign removal:
`digits [ '.' digits ] [ (e|E) [sign] digits ]` with at least one mantissa
digit; exact rational value. -/
def parseDecLit (cs : List Char) : Option ℚ :=
  match udRun cs.length cs with
  | (ip, r1) =>
    let fr : Option (List Char) × List Char :=
      match r1 with
      | '.' :: rr =>
        match udRun rr.length rr with
        | (f, r) => (some f, r)
      | _ => (none, r1)
    match fr with
    | (fp, r2) =>
      if ip = [] ∧ fp.getD [] = [] then none
      else
        let mant : ℚ := qAdd (qOfNat (digitsToNat ip))
          (match fp with
           | some f => mkRat (digitsToNat f) (10 ^ f.length)
           | none => 0)
        match r2 with
        | [] => some mant
        | c :: er =>
          if c = 'e' ∨ c = 'E' then
            let se : Bool × List Char :=
              match er with
              | '+' :: r => (false, r)
              | '-' :: r => (true, r)
              | _ => (false, er)
            match se with
            | (esgn, eb) =>
              match udRun eb.length eb with
              | (ed, r3) =>
                if ed = [] ∨ r3 ≠ [] then none
                else some (if esgn then qDivNat mant (10 ^ digitsToNat ed)
                           else qMul mant (qOfNat (10 ^ digitsToNat ed)))
          else none

/-- ASCII lower-casing, for the case-insensitive `inf`/`infinity`/`nan`
forms of Python `float`. -/
def asciiLower (c : Char) : Char :=
  if 'A' ≤ c ∧ c ≤ 'Z' then Char.ofNat (c.toNat + 32) else c

/-- Model of the builtin Python `float : str → float`: `none` models a raised
`ValueError`. Strips whitespace, takes an optional sign, then accepts
`inf`/`infinity`/`nan` (case-insensitively) or a decimal literal. -/
def pyFloatOfString (s : List Char) : Option PyFloat :=
  let t := stripList s
  let su : Bool × List Char :=
    match t with
    | '+' :: r => (false, r)
    | '-' :: r => (true, r)
    | _ => (false, t)
  match su with
  | (sgn, u) =>
    let lower := u.map asciiLower
    if lower = "inf".data ∨ lower = "infinity".data then
      some (if sgn then PyFloat.ninf else PyFloat.inf)
    else if lower = "nan".data then some PyFloat.nan
    else
      match parseDecLit u with
      | some q => some (PyFloat.fin (if sgn then qNeg q else q))
      | none => none

/-- IEEE-style addition on the modelled value space (`nan` absorbs,
opposite infinities give `nan`), as used by Python `sum`. -/
def pyAdd : PyFloat → PyFloat → PyFloat
  | PyFloat.nan, _ => PyFloat.nan
  | _, PyFloat.nan => PyFloat.nan
  | PyFloat.inf, PyFloat.ninf => PyFloat.nan
  | PyFloat.ninf, PyFloat.inf => PyFloat.nan
  | PyFloat.inf, _ => PyFloat.inf
  | _, PyFloat.inf => PyFloat.inf
  | PyFloat.ninf, _ => PyFloat.ninf
  | _, PyFloat.ninf => PyFloat.ninf
  | PyFloat.fin a, PyFloat.fin b => PyFloat.fin (qAdd a b)

/-- Python `sum` over a list of floats (initial value `0`). -/
def pySum (l : List PyFloat) : PyFloat := l.foldl pyAdd (PyFloat.fin 0)

/-- Division of a float by a (positive) list length, as in `sum(v)/len(v)`. -/
def pyDivNat : PyFloat → ℕ → PyFloat
  | PyFloat.nan, _ => PyFloat.nan
  | PyFloat.inf, _ => PyFloat.inf
  | PyFloat.ninf, _ => PyFloat.ninf
  | PyFloat.fin q, n => PyFloat.fin (qDivNat q n)

/-- `np.isnan`. -/
def isNan : PyFloat → Bool
  | PyFloat.nan => true
  | _ => false

/-- A match of the search pattern `([0-9]*\.?[0-9]+\s*[kKmM]?)`, kept in
structured form: number digits, optional fractional digits, the whitespace
run consumed by the greedy `\s*`, and the optional suffix character. -/
structure NumTok where
  d1 : List Char
  d2 : Option (List Char)
  ws : List Char
  suf : Option Char
  deriving DecidableEq, Repr

/-- The exact substring matched by the token (capture group 1). -/
def render (t : NumTok) : List Char :=
  renderNum t.d1 t.d2 ++ t.ws ++ (match t.suf with | some c => [c] | none => [])

/-- The canonical value of a token under the grammar semantics
(numeric part times suffix multiplier). -/
def tokValue (t : NumTok) : ℚ := qMul (numVal t.d1 t.d2) (multOf t.suf)

/-- Attempt of the search pattern `([0-9]*\.?[0-9]+\s*[kKmM]?)` anchored at
the head of the input: number, then greedy `\s*`, then an optional suffix
character. Returns the structured match and the rest of the input. -/
def tokAt (cs : List Char) : Option (NumTok × List Char) :=
  match numAtParts cs with
  | none => none
  | some ((d1, d2), r1) =>
    let ws := r1.takeWhile pyWs
    let r2 := r1.dropWhile pyWs
    match r2 with
    | c :: r3 =>
      if isSufChar c then some (⟨d1, d2, ws, some c⟩, r3)
      else some (⟨d1, d2, ws, none⟩, r2)
    | [] => some (⟨d1, d2, ws, none⟩, [])

/-- Model of `re.search(r"([0-9]*\.?[0-9]+\s*[kKmM]?)", s)`: leftmost match. -/
def searchTok : List Char → Option NumTok
  | [] => none
  | c :: rest =>
    match tokAt (c :: rest) with
    | some (t, _) => some t
    | none => searchTok rest

/-- Generic fuelled `re.findall` loop: try the step matcher at each position,
emit a match and continue after its end, or advance one character. Fuel
`cs.length` always suffices since a successful step consumes at least one
character. -/
def findAllAux {α : Type} (step : List Char → Option (α × List Char)) :
    ℕ → List Char → List α
  | 0, _ => []
  | _ + 1, [] => []
  | fuel + 1, c :: rest =>
    match step (c :: rest) with
    | some (m, r) => m :: findAllAux step fuel r
    | none => findAllAux step fuel rest

/-- Model of `re.findall(r"([0-9]*\.?[0-9]+\s*[kKmM]?)", s)`. -/
def findAllTok (cs : List Char) : List NumTok := findAllAux tokAt cs.length cs

namespace Cleaning

/-- Embedding of `cleaning._num_with_suffix_to_float` on its string path:
strip; empty gives `np.nan`; a match of `^([0-9]*\.?[0-9]+)\s*([kKmM]?)$`
gives `float(group1)` times the suffix multiplier; otherwise fall back to
`float(s)` with `except Exception: return np.nan`. -/
def num_with_suffix_to_float (s : List Char) : PyFloat :=
  let t := stripList s
  if t = [] then PyFloat.nan
  else
    match strictGroups t with
    | some ((d1, d2), suf) => PyFloat.fin (qMul (numVal d1 d2) (multOf suf))
    | none => (pyFloatOfString t).getD PyFloat.nan

/-- Embedding of `cleaning.parse_price` on its string path. -/
def parse_price_str (s0 : List Char) : PyFloat :=
  let s := stripList s0
  if s = [] then PyFloat.nan
  else
    let sClean := removeCurrency s
    if '-' ∈ sClean then
      let parts := ((splitHyphen sClean).map stripList).filter (fun p => p ≠ [])
      let vals := parts.filterMap
        (fun p => (searchTok p).map
          (fun t => num_with_suffix_to_float (removeSpaces (render t))))
      if vals = [] then PyFloat.nan else pyDivNat (pySum vals) vals.length
    else
      match searchTok sClean with
      | none => PyFloat.nan
      | some t => num_with_suffix_to_float (removeSpaces (render t))

/-- Embedding of `cleaning.extract_number` on its string path. -/
def extract_number_str (s0 : List Char) : PyFloat :=
  let s := stripList s0
  if s = [] then PyFloat.nan
  else
    let sNoComma := s.map (fun c => if c = ',' then ' ' else c)
    let toks := findAllTok sNoComma
    if toks = [] then PyFloat.nan
    else
      let vals := (toks.map
          (fun t => num_with_suffix_to_float (removeSpaces (render t)))).filter
        (fun v => ¬ isNan v)
      if vals = [] then PyFloat.nan else pyDivNat (pySum vals) vals.length

/-- `cleaning.parse_price` on a raw cell (`isinstance` guard included). -/
def parse_price : RawCell → PyFloat
  | RawCell.nonStr => PyFloat.nan
  | RawCell.str s => parse_price_str s.data

/-- `cleaning.extract_number` on a raw cell. -/
def extract_number : RawCell → PyFloat
  | RawCell.nonStr => PyFloat.nan
  | RawCell.str s => extract_number_str s.data

/-- `cleaning._num_with_suffix_to_float` on a raw cell. -/
def num_with_suffix_to_float_cell : RawCell → PyFloat
  | RawCell.nonStr => PyFloat.nan
  | RawCell.str s => num_with_suffix_to_float s.data

end Cleaning

/-- Attempt of the signed pattern `[-+]?[0-9]*\.?[0-9]+` of
`ml_pipeline.extract_number` at the head of the input. -/
def signedNumAt (cs : List Char) : Option (List Char × List Char) :=
  match cs with
  | [] => none
  | c :: rest =>
    if c = '-' ∨ c = '+' then
      match numAtParts rest with
      | some ((d1, d2), r) => some (c :: renderNum d1 d2, r)
      | none => none
    else
      match numAtParts cs with
      | some ((d1, d2), r) => some (renderNum d1 d2, r)
      | none => none

/-- Model of `re.findall(r"[-+]?[0-9]*\.?[0-9]+", s)`. -/
def findAllSigned (cs : List Char) : List (List Char) :=
  findAllAux signedNumAt cs.length cs

namespace MLPipeline

/-- Embedding of `ml_pipeline.parse_price` on its string path: drop commas,
strip, delete every character outside `[0-9\-\.\s]`; on a hyphen, split and
`float` every non-blank segment (any failure, or no segments, gives
`np.nan`), else `float` the whole string. -/
def parse_price_str (cs : List Char) : PyFloat :=
  let s1 := stripList (cs.filter (fun c => c ≠ ','))
  let s := s1.filter (fun c => c.isDigit || c = '-' || c = '.' || pyWs c)
  if '-' ∈ s then
    let parts := (splitHyphen s).filter (fun p => stripList p ≠ [])
    match parts.mapM pyFloatOfString with
    | some nums =>
      if nums = [] then PyFloat.nan else pyDivNat (pySum nums) nums.length
    | none => PyFloat.nan
  else (pyFloatOfString s).getD PyFloat.nan

/-- Embedding of `ml_pipeline.extract_number` on its string path: drop
commas, find all `[-+]?[0-9]*\.?[0-9]+` tokens, return the mean of their
`float` values (`np.nan` when there is no token; `float` cannot fail on a
matched token). -/
def extract_number_str (cs : List Char) : PyFloat :=
  let s := cs.filter (fun c => c ≠ ',')
  let ms := findAllSigned s
  if ms = [] then PyFloat.nan
  else
    let nums := ms.map (fun t => (pyFloatOfString t).getD PyFloat.nan)
    pyDivNat (pySum nums) nums.length

/-- `ml_pipeline.parse_price` on a raw cell. -/
def parse_price : RawCell → PyFloat
  | RawCell.nonStr => PyFloat.nan
  | RawCell.str s => parse_price_str s.data

/-- `ml_pipeline.extract_number` on a raw cell. -/
def extract_number : RawCell → PyFloat
  | RawCell.nonStr => PyFloat.nan
  | RawCell.str s => extract_number_str s.data

end MLPipeline

/-! ## Spec-side contracts (for C2 and C6) -/

/-- The finite part of a value: `some q` exactly when parsing succeeded
with a finite float. -/
def finPart : PyFloat → Option ℚ
  | PyFloat.fin q => some q
  | _ => none

/-- The range policy of spec section 4.2 step 3, written from the spec text:
split the cleaned string on hyphens, discard blank segments, extract the
first grammar-matching substring of each remaining segment, parse each via
the Token Value Parser, and return the arithmetic mean of the successfully
parsed values (Missing if none parse). -/
def rangeMeanSpec (s : List Char) : PyFloat :=
  let cleaned := removeCurrency (stripList s)
  let segs := ((splitHyphen cleaned).map stripList).filter (fun p => p ≠ [])
  let parsed := segs.filterMap (fun p => (searchTok p).bind (fun t =>
    finPart (Cleaning.num_with_suffix_to_float (removeSpaces (render t)))))
  if parsed = [] then PyFloat.nan
  else PyFloat.fin (qDivNat (parsed.foldl qAdd 0) parsed.length)

/-- The Multi-Value Extractor contract of spec section 4.3, written from the
spec text: commas become whitespace, all grammar-matching substrings are
parsed via the Token Value Parser, failures are silently discarded, and the
result is the arithmetic mean of the parsed values (Missing if none). -/
def extractMeanSpec (s : List Char) : PyFloat :=
  let t := stripList s
  if t = [] then PyFloat.nan
  else
    let toks := findAllTok (t.map (fun c => if c = ',' then ' ' else c))
    let parsed := toks.filterMap (fun tk =>
      finPart (Cleaning.num_with_suffix_to_float (removeSpaces (render tk))))
    if parsed = [] then PyFloat.nan
    else PyFloat.fin (qDivNat (parsed.foldl qAdd 0) parsed.length)

/-! ## Exception-aware variants (for the no-raise claim C4) -/

/-- `float(s)` as a fallible primitive: an `error` models a raised
`ValueError`. -/
def pyFloatExc (s : List Char) : Except Unit PyFloat :=
  match pyFloatOfString s with
  | some v => Except.ok v
  | none => Except.error ()

/-- The source's `try: ... except Exception: return np.nan` wrapper. -/
def tryNan (x : Except Unit PyFloat) : PyFloat :=
  match x with
  | Except.ok v => v
  | Except.error _ => PyFloat.nan

/-- `x / n` as a fallible primitive: an `error` models `ZeroDivisionError`. -/
def divExc (v : PyFloat) (n : ℕ) : Except Unit PyFloat :=
  if n = 0 then Except.error () else Except.ok (pyDivNat v n)

namespace Cleaning

/-- `_num_with_suffix_to_float` with its fallible `float` call explicit;
the only possibly-raising operation sits inside the source's `try/except`. -/
def num_with_suffix_to_float_exc (s : List Char) : Except Unit PyFloat :=
  let t := stripList s
  if t = [] then Except.ok PyFloat.nan
  else
    match strictGroups t with
    | some ((d1, d2), suf) =>
      Except.ok (PyFloat.fin (qMul (numVal d1 d2) (multOf suf)))
    | none => Except.ok (tryNan (pyFloatExc t))

/-- The value-collecting loop of `parse_price`'s range branch, propagating
any exception of the token parser. -/
def collectValsExc : List (List Char) → Except Unit (List PyFloat)
  | [] => Except.ok []
  | p :: ps =>
    match searchTok p with
    | some t =>
      match num_with_suffix_to_float_exc (removeSpaces (render t)) with
      | Except.ok v =>
        match collectValsExc ps with
        | Except.ok vs => Except.ok (v :: vs)
        | Except.error e => Except.error e
      | Except.error e => Except.error e
    | none => collectValsExc ps

/-- `parse_price` with every fallible primitive explicit; an `error` result
would model an exception escaping to the caller. -/
def parse_price_exc : RawCell → Except Unit PyFloat
  | RawCell.nonStr => Except.ok PyFloat.nan
  | RawCell.str s0 =>
    let s := stripList s0.data
    if s = [] then Except.ok PyFloat.nan
    else
      let sClean := removeCurrency s
      if '-' ∈ sClean then
        let parts := ((splitHyphen sClean).map stripList).filter (fun p => p ≠ [])
        match collectValsExc parts with
        | Except.ok vals =>
          if vals = [] then Except.ok PyFloat.nan
          else divExc (pySum vals) vals.length
        | Except.error e => Except.error e
      else
        match searchTok sClean with
        | none => Except.ok PyFloat.nan
        | some t => num_with_suffix_to_float_exc (removeSpaces (render t))

/-- The value-collecting loop of `extract_number` (parse, drop NaN),
propagating any exception of the token parser. -/
def extractValsExc : List NumTok → Except Unit (List PyFloat)
  | [] => Except.ok []
  | t :: ts =>
    match num_with_suffix_to_float_exc (removeSpaces (render t)) with
    | Except.ok v =>
      match extractValsExc ts with
      | Except.ok vs => Except.ok (if isNan v then vs else v :: vs)
      | Except.error e => Except.error e
    | Except.error e => Except.error e

/-- `extract_number` with every fallible primitive explicit. -/
def extract_number_exc : RawCell → Except Unit PyFloat
  | RawCell.nonStr => Except.ok PyFloat.nan
  | RawCell.str s0 =>
    let s := stripList s0.data
    if s = [] then Except.ok PyFloat.nan
    else
      let sNoComma := s.map (fun c => if c = ',' then ' ' else c)
      let toks := findAllTok sNoComma
      if toks = [] then Except.ok PyFloat.nan
      else
        match extractValsExc toks with
        | Except.ok vals =>
          if vals = [] then Except.ok PyFloat.nan
          else divExc (pySum vals) vals.length
        | Except.error e => Except.error e

end Cleaning

/-! ## Decimal serialization (for the round-trip claim C7) -/

/-- `'0' + d` for a decimal digit. -/
def dChar (d : ℕ) : Char := Char.ofNat (48 + d)

/-- Little-endian digit characters of `n` (fuelled; fuel `n` suffices). -/
def natDigitsAux : ℕ → ℕ → List Char
  | 0, _ => []
  | _ + 1, 0 => []
  | fuel + 1, n + 1 => dChar ((n + 1) % 10) :: natDigitsAux fuel ((n + 1) / 10)

/-- Big-endian decimal digit characters of `n` (empty for 0). -/
def decStr (n : ℕ) : List Char := (natDigitsAux n n).reverse

/-- Decimal serialization of a non-negative decimal rational: the string
form of the canonical float (the model writes the exact value, as Python's
`repr` of a float denotes a decimal that reparses to exactly that float).
Writes the integer digits, a dot, and `q.den` fractional digits. -/
def serializeDecimal (q : ℚ) : List Char :=
  let e := q.den
  let n := (qMul q (qOfNat (10 ^ e))).num.toNat
  let frac := decStr (n % 10 ^ e)
  decStr (n / 10 ^ e) ++ '.' :: (List.replicate (e - frac.length) '0' ++ frac)

theorem qOfNat_eq (n : ℕ) : qOfNat n = (n : ℚ) := by
  simp [qOfNat, Rat.mkRat_eq_div]

theorem qAdd_eq (a b : ℚ) : qAdd a b = a + b := by
  rw [qAdd, Rat.mkRat_eq_div]
  conv_rhs => rw [← Rat.num_div_den a, ← Rat.num_div_den b]
  have ha : ((a.den : ℚ)) ≠ 0 := by exact_mod_cast a.den_nz
  have hb : ((b.den : ℚ)) ≠ 0 := by exact_mod_cast b.den_nz
  field_simp

theorem qMul_eq (a b : ℚ) : qMul a b = a * b := by
  rw [qMul, Rat.mkRat_eq_div]
  conv_rhs => rw [← Rat.num_div_den a, ← Rat.num_div_den b]
  have ha : ((a.den : ℚ)) ≠ 0 := by exact_mod_cast a.den_nz
  have hb : ((b.den : ℚ)) ≠ 0 := by exact_mod_cast b.den_nz
  field_simp

theorem qDivNat_eq (a : ℚ) (n : ℕ) : qDivNat a n = a / n := by
  rcases Nat.eq_zero_or_pos n with hn | hn
  · subst hn
    simp [qDivNat]
  · rw [qDivNat, Rat.mkRat_eq_div]
    conv_rhs => rw [← Rat.num_div_den a]
    have ha : ((a.den : ℚ)) ≠ 0 := by exact_mod_cast a.den_nz
    have hn' : ((n : ℚ)) ≠ 0 := by
      exact_mod_cast Nat.pos_iff_ne_zero.mp hn
    field_simp

theorem qNeg_eq (a : ℚ) : qNeg a = -a := by
  rw [qNeg, Rat.mkRat_eq_div]
  conv_rhs => rw [← Rat.num_div_den a]
  push_cast
  ring

/-! ## Character-class and list helper lemmas -/

theorem ws_not_digit {c : Char} (h : pyWs c = true) : c.isDigit = false := by
  simp only [pyWs, Bool.or_eq_true, decide_eq_true_eq] at h
  rcases h with ((((h | h) | h) | h) | h) | h <;> subst h <;> decide

theorem ws_ne_dot {c : Char} (h : pyWs c = true) : c ≠ '.' := by
  intro he
  subst he
  exact absurd h (by decide)

theorem digit_not_ws {c : Char} (h : c.isDigit = true) : pyWs c = false := by
  cases hw : pyWs c
  · rfl
  · rw [ws_not_digit hw] at h
    cases h

theorem digit_ne_dot {c : Char} (h : c.isDigit = true) : c ≠ '.' := by
  intro he
  subst he
  exact absurd h (by decide)

theorem digit_ne_space {c : Char} (h : c.isDigit = true) : c ≠ ' ' := by
  intro he
  subst he
  exact absurd h (by decide)

theorem suf_facts {c : Char} (h : isSufChar c = true) :
    pyWs c = false ∧ c.isDigit = false ∧ c ≠ '.' ∧ c ≠ ' ' := by
  simp only [isSufChar, Bool.or_eq_true, decide_eq_true_eq] at h
  rcases h with ((h | h) | h) | h <;> subst h <;> refine ⟨by decide, by decide, by decide, by decide⟩

theorem takeWhile_all_append (p : Char → Bool) (l1 l2 : List Char)
    (h1 : ∀ c ∈ l1, p c = true) (h2 : ∀ c, l2.head? = some c → p c = false) :
    (l1 ++ l2).takeWhile p = l1 ∧ (l1 ++ l2).dropWhile p = l2 := by
  induction l1 with
  | nil =>
    simp only [List.nil_append]
    cases l2 with
    | nil => exact ⟨rfl, rfl⟩
    | cons c t =>
      have hc : p c = false := h2 c rfl
      constructor
      · rw [List.takeWhile_cons, hc]
        simp
      · rw [List.dropWhile_cons, hc]
        simp
  | cons a t ih =>
    have ha : p a = true := h1 a (List.mem_cons_self a t)
    have iht := ih (fun c hc => h1 c (List.mem_cons_of_mem a hc))
    constructor
    · rw [List.cons_append, List.takeWhile_cons, ha]
      simp only [if_true, iht.1]
    · rw [List.cons_append, List.dropWhile_cons, ha]
      simp only [if_true, iht.2]

theorem dropWhile_cons_of_neg (p : Char → Bool) (c : Char) (l : List Char)
    (h : p c = false) : (c :: l).dropWhile p = c :: l := by
  rw [List.dropWhile_cons, h]
  simp

/-! ## Well-formedness of matched tokens -/

/-- The invariants of a token produced by `tokAt`: the digit fields hold
digits, a present fractional part is nonempty, a missing one forces a
nonempty integer part, the whitespace field holds whitespace, and the
suffix field holds a suffix character. -/
structure TokWF (t : NumTok) : Prop where
  d1dig : ∀ c ∈ t.d1, c.isDigit = true
  d2dig : ∀ f, t.d2 = some f → f ≠ [] ∧ ∀ c ∈ f, c.isDigit = true
  d1ne : t.d2 = none → t.d1 ≠ []
  wsws : ∀ c ∈ t.ws, pyWs c = true
  sufok : ∀ c, t.suf = some c → isSufChar c = true

theorem numAtParts_sound {cs : List Char} {d1 : List Char}
    {d2 : Option (List Char)} {r : List Char}
    (h : numAtParts cs = some ((d1, d2), r)) :
    (∀ c ∈ d1, c.isDigit = true) ∧
    (∀ f, d2 = some f → f ≠ [] ∧ ∀ c ∈ f, c.isDigit = true) ∧
    (d2 = none → d1 ≠ []) ∧
    renderNum d1 d2 ++ r = cs := by
  simp only [numAtParts] at h
  split at h
  case _ r2 heq =>
    split at h
    case isTrue =>
      split at h
      · cases h
      case isFalse hd1 =>
        injection h with h
        injection h with h1 h2
        injection h1 with h1a h1b
        subst h1a; subst h2
        cases h1b
        refine ⟨fun c hc => List.mem_takeWhile_imp hc, ?_, fun _ => hd1, ?_⟩
        · intro f hf; cases hf
        · simp only [renderNum, List.append_nil]
          exact List.takeWhile_append_dropWhile _ _
    case isFalse hd2 =>
      injection h with h
      injection h with h1 h2
      injection h1 with h1a h1b
      subst h1a
      cases h1b
      subst h2
      refine ⟨fun c hc => List.mem_takeWhile_imp hc, ?_, ?_, ?_⟩
      · intro f hf
        injection hf with hf
        subst hf
        exact ⟨hd2, fun c hc => List.mem_takeWhile_imp hc⟩
      · intro hnone; cases hnone
      · simp only [renderNum]
        have : '.' :: (r2.takeWhile Char.isDigit ++ r2.dropWhile Char.isDigit) =
            '.' :: r2 := by rw [List.takeWhile_append_dropWhile]
        calc cs.takeWhile Char.isDigit ++
              ('.' :: r2.takeWhile Char.isDigit) ++ r2.dropWhile Char.isDigit
            = cs.takeWhile Char.isDigit ++ ('.' :: r2) := by
              rw [List.append_assoc, List.cons_append, this]
          _ = cs.takeWhile Char.isDigit ++ cs.dropWhile Char.isDigit := by rw [heq]
          _ = cs := List.takeWhile_append_dropWhile _ _
  case _ hne =>
    split at h
    · cases h
    case isFalse hd1 =>
      injection h with h
      injection h with h1 h2
      injection h1 with h1a h1b
      subst h1a; subst h2
      cases h1b
      refine ⟨fun c hc => List.mem_takeWhile_imp hc, ?_, fun _ => hd1, ?_⟩
      · intro f hf; cases hf
      · simp only [renderNum, List.append_nil]
        exact List.takeWhile_append_dropWhile _ _

theorem dropWhile_eq_self_of_head (p : Char → Bool) (l : List Char)
    (h : ∀ c, l.head? = some c → p c = false) : l.dropWhile p = l := by
  cases l with
  | nil => rfl
  | cons a t => exact dropWhile_cons_of_neg p a t (h a rfl)

theorem stripList_decomp (x ws' : List Char)
    (hxhead : ∀ c, x.head? = some c → pyWs c = false)
    (hxlast : ∀ c, x.reverse.head? = some c → pyWs c = false)
    (hws : ∀ c ∈ ws', pyWs c = true) :
    stripList (x ++ ws') = x := by
  cases x with
  | nil =>
    simp only [List.nil_append, stripList]
    have hdrop : ws'.dropWhile pyWs = [] := by
      have := (takeWhile_all_append pyWs ws' [] hws (fun c hc => by cases hc)).2
      simpa using this
    rw [hdrop]
    rfl
  | cons a t =>
    have h1 : (a :: t ++ ws').dropWhile pyWs = a :: t ++ ws' :=
      dropWhile_eq_self_of_head pyWs _ (fun c hc => by
        simp only [List.cons_append, List.head?_cons, Option.some.injEq] at hc
        exact hc ▸ hxhead a rfl)
    have h2 : (a :: t ++ ws').reverse = ws'.reverse ++ (a :: t).reverse := by
      rw [← List.reverse_append]
    have h3 : (ws'.reverse ++ (a :: t).reverse).dropWhile pyWs = (a :: t).reverse :=
      (takeWhile_all_append pyWs ws'.reverse (a :: t).reverse
        (fun c hc => hws c (List.mem_reverse.mp hc))
        (fun c hc => hxlast c hc)).2
    simp only [stripList, h1, h2, h3, List.reverse_reverse]

theorem renderNum_ne_nil {d1 : List Char} {d2 : Option (List Char)}
    (h2 : ∀ f, d2 = some f → f ≠ [] ∧ ∀ c ∈ f, c.isDigit = true)
    (h3 : d2 = none → d1 ≠ []) : renderNum d1 d2 ≠ [] := by
  cases d2 with
  | none =>
    simp only [renderNum, List.append_nil]
    exact h3 rfl
  | some f =>
    simp only [renderNum]
    intro he
    exact absurd (List.append_eq_nil.mp he).2 (by simp)

theorem renderNum_head_not_ws {d1 : List Char} {d2 : Option (List Char)}
    (h1 : ∀ c ∈ d1, c.isDigit = true)
    (h3 : d2 = none → d1 ≠ []) :
    ∀ c, (renderNum d1 d2).head? = some c → pyWs c = false := by
  intro c hc
  cases d1 with
  | cons a t =>
    have hX : (renderNum (a :: t) d2).head? = some a := by
      cases d2 <;> simp [renderNum]
    rw [hX] at hc
    injection hc with hac
    subst hac
    exact digit_not_ws (h1 a (List.mem_cons_self a t))
  | nil =>
    cases d2 with
    | none => exact absurd rfl (fun h => (h3 h) rfl)
    | some f =>
      simp only [renderNum, List.nil_append, List.head?_cons, Option.some.injEq] at hc
      subst hc
      decide

theorem renderNum_reverse_head_digit {d1 : List Char} {d2 : Option (List Char)}
    (h1 : ∀ c ∈ d1, c.isDigit = true)
    (h2 : ∀ f, d2 = some f → f ≠ [] ∧ ∀ c ∈ f, c.isDigit = true)
    (h3 : d2 = none → d1 ≠ []) :
    ∀ c, (renderNum d1 d2).reverse.head? = some c → c.isDigit = true := by
  intro c hc
  cases d2 with
  | none =>
    simp only [renderNum, List.append_nil] at hc
    have hne : d1.reverse ≠ [] := by
      simp only [ne_eq, List.reverse_eq_nil_iff]
      exact h3 rfl
    have : c ∈ d1.reverse := by
      cases hrev : d1.reverse with
      | nil => exact absurd hrev hne
      | cons a t =>
        rw [hrev] at hc
        simp only [List.head?_cons, Option.some.injEq] at hc
        subst hc
        exact hrev ▸ List.mem_cons_self a t
    exact h1 c (List.mem_reverse.mp this)
  | some f =>
    obtain ⟨hfne, hfd⟩ := h2 f rfl
    simp only [renderNum, List.reverse_append, List.reverse_cons] at hc
    have hne : f.reverse ≠ [] := by
      simp only [ne_eq, List.reverse_eq_nil_iff]
      exact hfne
    cases hrev : f.reverse with
    | nil => exact absurd hrev hne
    | cons a t =>
      rw [hrev] at hc
      simp only [List.cons_append, List.head?_cons, Option.some.injEq] at hc
      cases hc
      have hmem : c ∈ f.reverse := hrev ▸ List.mem_cons_self c t
      exact hfd c (List.mem_reverse.mp hmem)

theorem numAtParts_append (d1 : List Char) (d2 : Option (List Char)) (tail : List Char)
    (h1 : ∀ c ∈ d1, c.isDigit = true)
    (h2 : ∀ f, d2 = some f → f ≠ [] ∧ ∀ c ∈ f, c.isDigit = true)
    (h3 : d2 = none → d1 ≠ [])
    (h4 : ∀ c, tail.head? = some c → c.isDigit = false ∧ c ≠ '.') :
    numAtParts (renderNum d1 d2 ++ tail) = some ((d1, d2), tail) := by
  cases d2 with
  | none =>
    have hd1 : d1 ≠ [] := h3 rfl
    simp only [renderNum, List.append_nil]
    have htw := takeWhile_all_append Char.isDigit d1 tail h1
      (fun c hc => (h4 c hc).1)
    simp only [numAtParts, htw.1, htw.2]
    cases tail with
    | nil => simp [hd1]
    | cons c t =>
      have hcdot : c ≠ '.' := (h4 c rfl).2
      split
      case _ r2 heq =>
        injection heq with hch _
        exact absurd hch hcdot
      case _ =>
        rw [if_neg hd1]
  | some f =>
    obtain ⟨hfne, hfd⟩ := h2 f rfl
    simp only [renderNum]
    have heq : d1 ++ '.' :: f ++ tail = d1 ++ ('.' :: (f ++ tail)) := by
      simp
    rw [heq]
    have htw1 := takeWhile_all_append Char.isDigit d1 ('.' :: (f ++ tail)) h1
      (fun c hc => by
        simp only [List.head?_cons, Option.some.injEq] at hc
        subst hc
        decide)
    have htw2 := takeWhile_all_append Char.isDigit f tail hfd
      (fun c hc => (h4 c hc).1)
    simp only [numAtParts, htw1.1, htw1.2, htw2.1, htw2.2, if_neg hfne]

theorem head?_append_left (l1 l2 : List Char) (h : l1 ≠ []) :
    (l1 ++ l2).head? = l1.head? := by
  cases l1 with
  | nil => exact absurd rfl h
  | cons a t => rfl

theorem tokAt_sound {cs : List Char} {t : NumTok} {r : List Char}
    (h : tokAt cs = some (t, r)) : TokWF t ∧ render t ++ r = cs := by
  cases hnp : numAtParts cs with
  | none =>
    simp [tokAt, hnp] at h
  | some v =>
    obtain ⟨⟨d1, d2⟩, r1⟩ := v
    simp only [tokAt, hnp] at h
    obtain ⟨hd1, hd2, hd1ne, hren⟩ := numAtParts_sound hnp
    have hr1 : r1.takeWhile pyWs ++ r1.dropWhile pyWs = r1 :=
      List.takeWhile_append_dropWhile _ _
    cases hr2 : r1.dropWhile pyWs with
    | nil =>
      rw [hr2] at h
      simp only [Option.some.injEq, Prod.mk.injEq] at h
      obtain ⟨ht, hr⟩ := h
      subst ht; subst hr
      refine ⟨⟨hd1, hd2, hd1ne, fun c hc => List.mem_takeWhile_imp hc,
        fun c hc => by cases hc⟩, ?_⟩
      rw [hr2, List.append_nil] at hr1
      simp only [render, List.append_nil, hr1]
      exact hren
    | cons c r3 =>
      simp only [hr2] at h
      rw [hr2] at hr1
      by_cases hsc : isSufChar c = true
      · rw [if_pos hsc] at h
        simp only [Option.some.injEq, Prod.mk.injEq] at h
        obtain ⟨ht, hr⟩ := h
        subst ht; subst hr
        refine ⟨⟨hd1, hd2, hd1ne, fun c' hc' => List.mem_takeWhile_imp hc',
          fun c' hc' => by injection hc' with hc''; rw [← hc'']; exact hsc⟩, ?_⟩
        simp only [render, List.append_assoc, List.singleton_append]
        rw [hr1]
        exact hren
      · rw [if_neg hsc] at h
        simp only [Option.some.injEq, Prod.mk.injEq] at h
        obtain ⟨ht, hr⟩ := h
        subst ht; subst hr
        refine ⟨⟨hd1, hd2, hd1ne, fun c' hc' => List.mem_takeWhile_imp hc',
          fun c' hc' => by cases hc'⟩, ?_⟩
        simp only [render, List.append_nil, List.append_assoc]
        rw [hr1]
        exact hren

theorem searchTok_wf : ∀ {cs : List Char} {t : NumTok},
    searchTok cs = some t → TokWF t := by
  intro cs
  induction cs with
  | nil => intro t h; cases h
  | cons c rest ih =>
    intro t h
    simp only [searchTok] at h
    cases ht : tokAt (c :: rest) with
    | some v =>
      obtain ⟨t', r⟩ := v
      rw [ht] at h
      injection h with h
      subst h
      exact (tokAt_sound ht).1
    | none =>
      rw [ht] at h
      exact ih h

theorem findAllAux_forall {α : Type} (step : List Char → Option (α × List Char))
    (P : α → Prop) (hstep : ∀ cs m r, step cs = some (m, r) → P m) :
    ∀ (fuel : ℕ) (cs : List Char), ∀ t ∈ findAllAux step fuel cs, P t := by
  intro fuel
  induction fuel with
  | zero =>
    intro cs t ht
    simp only [findAllAux] at ht
    cases ht
  | succ n ih =>
    intro cs t ht
    cases cs with
    | nil => simp only [findAllAux] at ht; cases ht
    | cons c rest =>
      simp only [findAllAux] at ht
      cases hs : step (c :: rest) with
      | some v =>
        obtain ⟨m, r⟩ := v
        rw [hs] at ht
        rcases List.mem_cons.mp ht with h | h
        · subst h; exact hstep _ _ _ hs
        · exact ih r t h
      | none =>
        rw [hs] at ht
        exact ih rest t ht

theorem findAllTok_wf {cs : List Char} {t : NumTok} (h : t ∈ findAllTok cs) :
    TokWF t :=
  findAllAux_forall tokAt TokWF (fun _ _ _ hm => (tokAt_sound hm).1) cs.length cs t h

/-- Core re-parse lemma: the substring matched by the search pattern, after
the source's `.replace(' ', '')`, is accepted by the anchored grammar of
`_num_with_suffix_to_float` and evaluates to the token's value. -/
theorem num_wsf_render (t : NumTok) (h : TokWF t) :
    Cleaning.num_with_suffix_to_float (removeSpaces (render t)) =
      PyFloat.fin (tokValue t) := by
  obtain ⟨h1, h2, h3, hws, hsuf⟩ := h
  have hrnchar : ∀ a ∈ renderNum t.d1 t.d2, a ≠ ' ' := by
    intro a ha
    rcases List.mem_append.mp ha with hm | hm
    · exact digit_ne_space (h1 a hm)
    · cases hd : t.d2 with
      | none => rw [hd] at hm; cases hm
      | some f =>
        rw [hd] at hm
        rcases List.mem_cons.mp hm with rfl | hf
        · decide
        · exact digit_ne_space ((h2 f hd).2 a hf)
  have hwsfilter : ∀ c ∈ t.ws.filter (fun c => decide (c ≠ ' ')), pyWs c = true :=
    fun c hc => hws c (List.mem_of_mem_filter hc)
  have hrnws : ∀ c, (renderNum t.d1 t.d2).head? = some c → pyWs c = false :=
    renderNum_head_not_ws h1 h3
  have hrnrev : ∀ c, (renderNum t.d1 t.d2).reverse.head? = some c → pyWs c = false :=
    fun c hc => digit_not_ws (renderNum_reverse_head_digit h1 h2 h3 c hc)
  have hrne : renderNum t.d1 t.d2 ≠ [] := renderNum_ne_nil h2 h3
  cases hs : t.suf with
  | none =>
    have hA : removeSpaces (render t) =
        renderNum t.d1 t.d2 ++ t.ws.filter (fun c => decide (c ≠ ' ')) := by
      simp only [removeSpaces, render, hs, List.append_nil, List.filter_append]
      congr 1
      exact List.filter_eq_self.mpr (fun a ha => by
        simpa using hrnchar a ha)
    have hB : stripList (removeSpaces (render t)) = renderNum t.d1 t.d2 := by
      rw [hA]
      exact stripList_decomp _ _ hrnws hrnrev hwsfilter
    have hSG : strictGroups (renderNum t.d1 t.d2) = some ((t.d1, t.d2), none) := by
      have hnp : numAtParts (renderNum t.d1 t.d2 ++ []) = some ((t.d1, t.d2), []) :=
        numAtParts_append t.d1 t.d2 [] h1 h2 h3 (fun c hc => by cases hc)
      rw [List.append_nil] at hnp
      simp only [strictGroups, hnp]
      rfl
    simp only [Cleaning.num_with_suffix_to_float, hB, if_neg hrne, hSG, tokValue, hs]
  | some c =>
    have hcfacts := suf_facts (hsuf c hs)
    have hA : removeSpaces (render t) =
        renderNum t.d1 t.d2 ++ (t.ws.filter (fun c => decide (c ≠ ' ')) ++ [c]) := by
      simp only [removeSpaces, render, hs, List.filter_append]
      rw [List.filter_eq_self.mpr (fun a ha => by simpa using hrnchar a ha)]
      rw [List.filter_eq_self.mpr (fun a (ha : a ∈ [c]) => by
        rcases List.mem_singleton.mp ha with rfl
        simpa using hcfacts.2.2.2)]
      simp [List.append_assoc]
    have hB : stripList (removeSpaces (render t)) =
        renderNum t.d1 t.d2 ++ (t.ws.filter (fun c => decide (c ≠ ' ')) ++ [c]) := by
      rw [hA]
      have := stripList_decomp
        (renderNum t.d1 t.d2 ++ (t.ws.filter (fun c => decide (c ≠ ' ')) ++ [c])) []
        (fun c' hc' => by
          rw [head?_append_left _ _ hrne] at hc'
          exact hrnws c' hc')
        (fun c' hc' => by
          simp only [List.reverse_append, List.reverse_cons, List.reverse_nil,
            List.nil_append, List.cons_append, List.head?_cons,
            Option.some.injEq] at hc'
          cases hc'
          exact hcfacts.1)
        (fun c' hc' => by cases hc')
      rw [List.append_nil] at this
      exact this
    have hSG : strictGroups (renderNum t.d1 t.d2 ++
        (t.ws.filter (fun c => decide (c ≠ ' ')) ++ [c])) =
        some ((t.d1, t.d2), some c) := by
      have hnp := numAtParts_append t.d1 t.d2
        (t.ws.filter (fun c => decide (c ≠ ' ')) ++ [c]) h1 h2 h3
        (fun c' hc' => by
          cases hwf : t.ws.filter (fun c => decide (c ≠ ' ')) with
          | nil =>
            rw [hwf] at hc'
            simp only [List.nil_append, List.head?_cons, Option.some.injEq] at hc'
            cases hc'
            exact ⟨hcfacts.2.1, hcfacts.2.2.1⟩
          | cons w ws2 =>
            rw [hwf] at hc'
            simp only [List.cons_append, List.head?_cons, Option.some.injEq] at hc'
            cases hc'
            have hwsc : pyWs c' = true := hwsfilter c' (hwf ▸ List.mem_cons_self c' ws2)
            exact ⟨ws_not_digit hwsc, ws_ne_dot hwsc⟩)
      have hdw : (t.ws.filter (fun c => decide (c ≠ ' ')) ++ [c]).dropWhile pyWs =
          [c] :=
        (takeWhile_all_append pyWs _ [c] hwsfilter
          (fun c' hc' => by
            simp only [List.head?_cons, Option.some.injEq] at hc'
            cases hc'
            exact hcfacts.1)).2
      simp only [strictGroups, hnp, hdw, if_pos (hsuf c hs)]
    simp only [Cleaning.num_with_suffix_to_float, hB, hSG, tokValue, hs]
    rw [if_neg (fun he : _ ++ _ = [] => hrne (List.append_eq_nil.mp he).1)]

/-! ## Value and mean lemmas -/

theorem numVal_nonneg (d1 : List Char) (d2 : Option (List Char)) :
    0 ≤ numVal d1 d2 := by
  cases d2 with
  | none =>
    simp only [numVal, qAdd_eq, qOfNat_eq, add_zero]
    positivity
  | some f =>
    simp only [numVal, qAdd_eq, qOfNat_eq]
    refine add_nonneg (by positivity) ?_
    rw [Rat.mkRat_eq_div]
    positivity

theorem multOf_nonneg (s : Option Char) : 0 ≤ multOf s := by
  cases s with
  | none => norm_num [multOf]
  | some c =>
    simp only [multOf]
    split_ifs <;> norm_num

theorem tokValue_nonneg (t : NumTok) : 0 ≤ tokValue t := by
  rw [tokValue, qMul_eq]
  exact mul_nonneg (numVal_nonneg _ _) (multOf_nonneg _)

theorem pySum_fin_go (l : List ℚ) (q0 : ℚ) :
    (l.map PyFloat.fin).foldl pyAdd (PyFloat.fin q0) =
      PyFloat.fin (l.foldl qAdd q0) := by
  induction l generalizing q0 with
  | nil => rfl
  | cons a t ih => simpa using ih (qAdd q0 a)

theorem pySum_map_fin (l : List ℚ) :
    pySum (l.map PyFloat.fin) = PyFloat.fin (l.foldl qAdd 0) :=
  pySum_fin_go l 0

theorem foldl_qAdd_nonneg (l : List ℚ) (q0 : ℚ) (h0 : 0 ≤ q0)
    (hl : ∀ x ∈ l, 0 ≤ x) : 0 ≤ l.foldl qAdd q0 := by
  induction l generalizing q0 with
  | nil => exact h0
  | cons a t ih =>
    simp only [List.foldl_cons]
    refine ih (qAdd q0 a) ?_ (fun x hx => hl x (List.mem_cons_of_mem a hx))
    rw [qAdd_eq]
    exact add_nonneg h0 (hl a (List.mem_cons_self a t))

theorem qDivNat_nonneg (q : ℚ) (n : ℕ) (h : 0 ≤ q) : 0 ≤ qDivNat q n := by
  rw [qDivNat_eq]
  positivity

/-- The value list built by `parse_price`'s range loop is the `fin` image of
the token-value list. -/
theorem segVals_eq (parts : List (List Char)) :
    parts.filterMap (fun p => (searchTok p).map
      (fun t => Cleaning.num_with_suffix_to_float (removeSpaces (render t)))) =
    (parts.filterMap (fun p => (searchTok p).map tokValue)).map PyFloat.fin := by
  induction parts with
  | nil => rfl
  | cons p ps ih =>
    simp only [List.filterMap_cons]
    cases hs : searchTok p with
    | none => simpa using ih
    | some t =>
      simp only [Option.map_some']
      rw [num_wsf_render t (searchTok_wf hs)]
      simp [ih]

/-- The spec-side "successfully parsed" list of the range rule equals the
token-value list. -/
theorem finPart_fin (q : ℚ) : finPart (PyFloat.fin q) = some q := rfl

theorem segValsSpec_eq (parts : List (List Char)) :
    parts.filterMap (fun p => (searchTok p).bind (fun t =>
      finPart (Cleaning.num_with_suffix_to_float (removeSpaces (render t))))) =
    parts.filterMap (fun p => (searchTok p).map tokValue) := by
  induction parts with
  | nil => rfl
  | cons p ps ih =>
    simp only [List.filterMap_cons]
    cases hs : searchTok p with
    | none => simpa using ih
    | some t =>
      simp only [hs, Option.some_bind, Option.map_some',
        num_wsf_render t (searchTok_wf hs), finPart_fin, ih]

/-- The value list built by `extract_number`'s loop (parse, drop NaN) is
the `fin` image of the token-value list. -/
theorem tokVals_eq (toks : List NumTok) (h : ∀ t ∈ toks, TokWF t) :
    (toks.map (fun t =>
        Cleaning.num_with_suffix_to_float (removeSpaces (render t)))).filter
      (fun v => ¬ isNan v) =
    (toks.map tokValue).map PyFloat.fin := by
  induction toks with
  | nil => rfl
  | cons t ts ih =>
    simp only [List.map_cons, List.filter_cons]
    rw [num_wsf_render t (h t (List.mem_cons_self t ts))]
    rw [ih (fun t' ht' => h t' (List.mem_cons_of_mem t ht'))]
    simp [isNan]

/-- The spec-side "successfully parsed" list of the extractor equals the
token-value list. -/
theorem tokValsSpec_eq (toks : List NumTok) (h : ∀ t ∈ toks, TokWF t) :
    toks.filterMap (fun tk =>
      finPart (Cleaning.num_with_suffix_to_float (removeSpaces (render tk)))) =
    toks.map tokValue := by
  induction toks with
  | nil => rfl
  | cons t ts ih =>
    simp only [List.filterMap_cons]
    rw [num_wsf_render t (h t (List.mem_cons_self t ts))]
    rw [ih (fun t' ht' => h t' (List.mem_cons_of_mem t ht'))]
    rfl

/-! ## Shape of the two normalizers: Missing or a non-negative finite value -/

theorem parse_price_str_shape (s : List Char) :
    Cleaning.parse_price_str s = PyFloat.nan ∨
    ∃ q, Cleaning.parse_price_str s = PyFloat.fin q ∧ 0 ≤ q := by
  by_cases h0 : stripList s = []
  · left
    simp [Cleaning.parse_price_str, h0]
  · by_cases h1 : '-' ∈ removeCurrency (stripList s)
    · simp only [Cleaning.parse_price_str, if_neg h0, if_pos h1, segVals_eq]
      set L := (((splitHyphen (removeCurrency (stripList s))).map stripList).filter
        (fun p => p ≠ [])).filterMap (fun p => (searchTok p).map tokValue) with hL
      by_cases hLe : L = []
      · left
        simp [hLe]
      · right
        refine ⟨qDivNat (L.foldl qAdd 0) L.length, ?_, ?_⟩
        · rw [if_neg (by simpa using hLe)]
          rw [pySum_map_fin, List.length_map]
          rfl
        · refine qDivNat_nonneg _ _ (foldl_qAdd_nonneg _ _ le_rfl ?_)
          intro x hx
          rcases List.mem_filterMap.mp hx with ⟨p, _, hp⟩
          rcases Option.map_eq_some.mp hp with ⟨t, _, rfl⟩
          exact tokValue_nonneg t
    · simp only [Cleaning.parse_price_str, if_neg h0, if_neg h1]
      cases hs : searchTok (removeCurrency (stripList s)) with
      | none => left; rfl
      | some t =>
        right
        exact ⟨tokValue t, num_wsf_render t (searchTok_wf hs), tokValue_nonneg t⟩

theorem extract_number_str_shape (s : List Char) :
    Cleaning.extract_number_str s = PyFloat.nan ∨
    ∃ q, Cleaning.extract_number_str s = PyFloat.fin q ∧ 0 ≤ q := by
  by_cases h0 : stripList s = []
  · left
    simp [Cleaning.extract_number_str, h0]
  · by_cases h1 : findAllTok ((stripList s).map (fun c => if c = ',' then ' ' else c)) = []
    · left
      simp [Cleaning.extract_number_str, if_neg h0, h1]
    · simp only [Cleaning.extract_number_str, if_neg h0, if_neg h1]
      rw [tokVals_eq _ (fun t ht => findAllTok_wf ht)]
      set L := (findAllTok ((stripList s).map (fun c => if c = ',' then ' ' else c))).map
        tokValue with hL
      by_cases hLe : L = []
      · left
        simp [hLe]
      · right
        refine ⟨qDivNat (L.foldl qAdd 0) L.length, ?_, ?_⟩
        · rw [if_neg (by simpa using hLe)]
          rw [pySum_map_fin, List.length_map]
          rfl
        · refine qDivNat_nonneg _ _ (foldl_qAdd_nonneg _ _ le_rfl ?_)
          intro x hx
          rcases List.mem_map.mp hx with ⟨t, _, rfl⟩
          exact tokValue_nonneg t

/-! ## Claim theorems -/

/-! ## Digit strings and decimal divisibility (C7) -/

theorem mkRat_den_dvd (n : ℤ) (d : ℕ) : (mkRat n d).den ∣ d := by
  by_cases h : d = 0
  · subst h
    exact Dvd.intro 0 rfl
  · rw [mkRat, dif_neg h, Rat.normalize_eq]
    exact ⟨n.natAbs.gcd d, (Nat.div_mul_cancel (Nat.gcd_dvd_right _ _)).symm⟩

theorem qAdd_den_dvd (a b : ℚ) : (qAdd a b).den ∣ a.den * b.den :=
  mkRat_den_dvd _ _

theorem qMul_den_dvd (a b : ℚ) : (qMul a b).den ∣ a.den * b.den :=
  mkRat_den_dvd _ _

theorem qOfNat_den (n : ℕ) : (qOfNat n).den = 1 :=
  Nat.dvd_one.mp (mkRat_den_dvd _ _)

theorem multOf_den (s : Option Char) : (multOf s).den = 1 := by
  cases s with
  | none => rfl
  | some c =>
    simp only [multOf]
    split_ifs <;> decide

theorem numVal_den_dvd (d1 : List Char) (d2 : Option (List Char)) :
    ∃ k, (numVal d1 d2).den ∣ 10 ^ k := by
  cases d2 with
  | none =>
    refine ⟨0, ?_⟩
    have h1 := qAdd_den_dvd (qOfNat (digitsToNat d1)) 0
    rw [qOfNat_den, one_mul] at h1
    simpa [numVal] using h1
  | some f =>
    refine ⟨f.length, ?_⟩
    have h1 := qAdd_den_dvd (qOfNat (digitsToNat d1))
      (mkRat (digitsToNat f) (10 ^ f.length))
    have h3 := mkRat_den_dvd (digitsToNat f : ℤ) (10 ^ f.length)
    rw [qOfNat_den, one_mul] at h1
    exact dvd_trans (by simpa [numVal] using h1) h3

theorem tokVal_den_dvd (d1 : List Char) (d2 : Option (List Char))
    (suf : Option Char) :
    ∃ k, (qMul (numVal d1 d2) (multOf suf)).den ∣ 10 ^ k := by
  obtain ⟨k, hk⟩ := numVal_den_dvd d1 d2
  refine ⟨k, ?_⟩
  have h1 := qMul_den_dvd (numVal d1 d2) (multOf suf)
  rw [multOf_den, mul_one] at h1
  exact h1.trans hk

/-- A number dividing some power of ten divides the power of ten with its
own exponent. -/
theorem dvd_ten_pow : ∀ d : ℕ, 0 < d → (∃ k, d ∣ 10 ^ k) → d ∣ 10 ^ d := by
  intro d
  induction d using Nat.strong_induction_on with
  | _ d ih =>
    intro hd hex
    obtain ⟨k, hk⟩ := hex
    by_cases h1 : d = 1
    · subst h1
      exact one_dvd _
    · obtain ⟨p, hp, hpd⟩ := Nat.exists_prime_and_dvd h1
      have hp10 : p ∣ 10 := hp.dvd_of_dvd_pow (hpd.trans hk)
      have hdd : d = p * (d / p) := (Nat.mul_div_cancel' hpd).symm
      have hppos : 1 < p := hp.one_lt
      have hd'lt : d / p < d := Nat.div_lt_self hd hppos
      have hd'pos : 0 < d / p := by
        rcases Nat.eq_zero_or_pos (d / p) with h0 | h0
        · rw [h0, Nat.mul_zero] at hdd
          omega
        · exact h0
      have hd'dvd : d / p ∣ 10 ^ k :=
        dvd_trans ⟨p, by rw [Nat.mul_comm]; exact hdd⟩ hk
      have ih' : d / p ∣ 10 ^ (d / p) := ih (d / p) hd'lt hd'pos ⟨k, hd'dvd⟩
      have hmul : d ∣ 10 * 10 ^ (d / p) := by
        nth_rewrite 1 [hdd]
        exact mul_dvd_mul hp10 ih'
      have hpow : 10 * 10 ^ (d / p) = 10 ^ (d / p + 1) := by
        rw [pow_succ, Nat.mul_comm]
      have hle : d / p + 1 ≤ d := hd'lt
      exact dvd_trans hmul (hpow ▸ pow_dvd_pow 10 hle)

theorem digitsToNat_go (l : List Char) (a : ℕ) :
    l.foldl (fun a c => 10 * a + (c.toNat - 48)) a =
      a * 10 ^ l.length + digitsToNat l := by
  induction l generalizing a with
  | nil => simp [digitsToNat]
  | cons c t ih =>
    simp only [List.foldl_cons, List.length_cons]
    rw [ih (10 * a + (c.toNat - 48))]
    have hct : digitsToNat (c :: t) = (c.toNat - 48) * 10 ^ t.length + digitsToNat t := by
      show (c :: t).foldl (fun a c => 10 * a + (c.toNat - 48)) 0 = _
      simp only [List.foldl_cons]
      rw [ih (10 * 0 + (c.toNat - 48))]
      ring_nf
    rw [hct]
    ring

theorem digitsToNat_append (l1 l2 : List Char) :
    digitsToNat (l1 ++ l2) = digitsToNat l1 * 10 ^ l2.length + digitsToNat l2 := by
  show (l1 ++ l2).foldl (fun a c => 10 * a + (c.toNat - 48)) 0 = _
  rw [List.foldl_append]
  exact digitsToNat_go l2 _

theorem digitsToNat_replicate_zero (k : ℕ) :
    digitsToNat (List.replicate k '0') = 0 := by
  induction k with
  | zero => rfl
  | succ m ih =>
    show digitsToNat (['0'] ++ List.replicate m '0') = 0
    rw [digitsToNat_append, ih]
    norm_num [show digitsToNat ['0'] = 0 from rfl]

theorem dChar_val {d : ℕ} (h : d < 10) : (dChar d).toNat - 48 = d := by
  interval_cases d <;> decide

theorem dChar_digit {d : ℕ} (h : d < 10) : (dChar d).isDigit = true := by
  interval_cases d <;> decide

theorem natDigitsAux_digits :
    ∀ (fuel n : ℕ), ∀ c ∈ natDigitsAux fuel n, c.isDigit = true := by
  intro fuel
  induction fuel with
  | zero => intro n c hc; cases hc
  | succ f ih =>
    intro n c hc
    cases n with
    | zero => cases hc
    | succ m =>
      rcases List.mem_cons.mp hc with rfl | h
      · exact dChar_digit (Nat.mod_lt _ (by norm_num))
      · exact ih _ c h

theorem natDigitsAux_val :
    ∀ (fuel n : ℕ), n ≤ fuel → digitsToNat ((natDigitsAux fuel n).reverse) = n := by
  intro fuel
  induction fuel with
  | zero =>
    intro n h
    have : n = 0 := Nat.le_zero.mp h
    subst this
    rfl
  | succ f ih =>
    intro n h
    cases n with
    | zero => rfl
    | succ m =>
      have hq : (m + 1) / 10 ≤ f := by
        have : (m + 1) / 10 < m + 1 := Nat.div_lt_self (Nat.succ_pos m) (by norm_num)
        omega
      show digitsToNat ((dChar ((m + 1) % 10) ::
        natDigitsAux f ((m + 1) / 10)).reverse) = m + 1
      rw [List.reverse_cons, digitsToNat_append, ih _ hq]
      have hsingle : digitsToNat [dChar ((m + 1) % 10)] = (m + 1) % 10 := by
        show 10 * 0 + ((dChar ((m + 1) % 10)).toNat - 48) = (m + 1) % 10
        rw [dChar_val (Nat.mod_lt _ (by norm_num))]
        omega
      rw [hsingle]
      simp only [List.length_singleton, pow_one]
      omega

theorem natDigitsAux_len :
    ∀ (fuel n e : ℕ), n < 10 ^ e → (natDigitsAux fuel n).length ≤ e := by
  intro fuel
  induction fuel with
  | zero => intro n e _; simp [natDigitsAux]
  | succ f ih =>
    intro n e h
    cases n with
    | zero => simp [natDigitsAux]
    | succ m =>
      have he : e ≠ 0 := by
        intro he0
        subst he0
        simp at h
      obtain ⟨e', rfl⟩ := Nat.exists_eq_succ_of_ne_zero he
      show (dChar ((m + 1) % 10) :: natDigitsAux f ((m + 1) / 10)).length ≤ e' + 1
      simp only [List.length_cons]
      have hdiv : (m + 1) / 10 < 10 ^ e' := by
        apply Nat.div_lt_of_lt_mul
        rw [Nat.mul_comm]
        rw [← pow_succ]
        exact h
      exact Nat.succ_le_succ (ih _ _ hdiv)

theorem decStr_val (n : ℕ) : digitsToNat (decStr n) = n :=
  natDigitsAux_val n n le_rfl

theorem decStr_digits {n : ℕ} : ∀ c ∈ decStr n, c.isDigit = true :=
  fun c hc => natDigitsAux_digits n n c (List.mem_reverse.mp hc)

theorem decStr_len {n e : ℕ} (h : n < 10 ^ e) : (decStr n).length ≤ e := by
  rw [decStr, List.length_reverse]
  exact natDigitsAux_len n n e h

theorem qMul_one (a : ℚ) : qMul a 1 = a := by
  rw [qMul_eq, mul_one]

/-- Serializing a non-negative decimal rational and re-parsing it with the
Token Value Parser recovers the value exactly. -/
theorem serialize_roundtrip (v : ℚ) (hv : 0 ≤ v) (hden : v.den ∣ 10 ^ v.den) :
    Cleaning.num_with_suffix_to_float (serializeDecimal v) = PyFloat.fin v := by
  set e := v.den with he
  set n := (qMul v (qOfNat (10 ^ e))).num.toNat with hn
  set ds := decStr (n % 10 ^ e) with hds
  set fracD := List.replicate (e - ds.length) '0' ++ ds with hfracD
  set intD := decStr (n / 10 ^ e) with hintD
  have hpow_pos : 0 < 10 ^ e := pow_pos (by norm_num) e
  have hds_le : ds.length ≤ e := decStr_len (Nat.mod_lt _ hpow_pos)
  have hfrac_len : fracD.length = e := by
    rw [hfracD, List.length_append, List.length_replicate]
    omega
  have hepos : 0 < e := v.den_pos
  have hfrac_ne : fracD ≠ [] := by
    intro h0
    rw [h0] at hfrac_len
    simp at hfrac_len
    omega
  have hfrac_dig : ∀ c ∈ fracD, c.isDigit = true := by
    intro c hc
    rcases List.mem_append.mp hc with hm | hm
    · rw [List.eq_of_mem_replicate hm]
      decide
    · exact decStr_digits c hm
  have hint_dig : ∀ c ∈ intD, c.isDigit = true := fun c hc => decStr_digits c hc
  have hser : serializeDecimal v = renderNum intD (some fracD) := rfl
  rw [hser]
  have h2 : ∀ f, (some fracD : Option (List Char)) = some f →
      f ≠ [] ∧ ∀ c ∈ f, c.isDigit = true := by
    intro f hf
    injection hf with hf
    subst hf
    exact ⟨hfrac_ne, hfrac_dig⟩
  have h3 : (some fracD : Option (List Char)) = none → intD ≠ [] :=
    fun h => by cases h
  have hne : renderNum intD (some fracD) ≠ [] := renderNum_ne_nil h2 h3
  have hstrip : stripList (renderNum intD (some fracD)) =
      renderNum intD (some fracD) := by
    have := stripList_decomp (renderNum intD (some fracD)) []
      (renderNum_head_not_ws hint_dig h3)
      (fun c hc => digit_not_ws (renderNum_reverse_head_digit hint_dig h2 h3 c hc))
      (fun c hc => by cases hc)
    rwa [List.append_nil] at this
  have hnp : numAtParts (renderNum intD (some fracD)) =
      some ((intD, some fracD), []) := by
    have := numAtParts_append intD (some fracD) [] hint_dig h2 h3
      (fun c hc => by cases hc)
    rwa [List.append_nil] at this
  have hsg : strictGroups (renderNum intD (some fracD)) =
      some ((intD, some fracD), none) := by
    simp only [strictGroups, hnp]
    rfl
  have hval : numVal intD (some fracD) = v := by
    set c := 10 ^ e / v.den with hcdef
    have hvden : ((v.den : ℚ)) ≠ 0 := by exact_mod_cast v.den_nz
    have hc : v.den * c = 10 ^ e := Nat.mul_div_cancel' hden
    have hnum_nonneg : 0 ≤ v.num := Rat.num_nonneg.mpr hv
    have hvnum : v * (v.den : ℚ) = (v.num : ℚ) := by
      have h := Rat.num_div_den v
      rw [div_eq_iff hvden] at h
      exact h.symm
    have hcast : ((v.den : ℚ)) * ((c : ℕ) : ℚ) = (10 : ℚ) ^ e := by
      rw [← Nat.cast_mul, hc]
      push_cast
      ring
    have hq1 : qMul v (qOfNat (10 ^ e)) = ((v.num * (c : ℤ) : ℤ) : ℚ) := by
      rw [qMul_eq, qOfNat_eq]
      push_cast
      rw [← hcast, ← mul_assoc, hvnum]
    have hn_int : ((n : ℤ)) = v.num * c := by
      rw [hn, hq1, Rat.num_intCast]
      exact Int.toNat_of_nonneg (mul_nonneg hnum_nonneg (Int.natCast_nonneg c))
    have hnq : ((n : ℕ) : ℚ) = v * (10 : ℚ) ^ e := by
      have hcq : ((n : ℕ) : ℚ) = ((v.num * (c : ℤ) : ℤ) : ℚ) := by
        exact_mod_cast congrArg (fun z : ℤ => (z : ℚ)) hn_int
      rw [hcq]
      push_cast
      rw [← hvnum, mul_assoc, hcast]
    have hint_val : digitsToNat intD = n / 10 ^ e := decStr_val _
    have hfrac_val : digitsToNat fracD = n % 10 ^ e := by
      rw [hfracD, digitsToNat_append, digitsToNat_replicate_zero, Nat.zero_mul,
        Nat.zero_add, hds, decStr_val]
    simp only [numVal, qAdd_eq, qOfNat_eq, Rat.mkRat_eq_div, hint_val, hfrac_val,
      hfrac_len]
    have h10' : ((10 ^ e : ℕ) : ℚ) ≠ 0 := by positivity
    have hcc : (((n % 10 ^ e : ℕ) : ℤ) : ℚ) = ((n % 10 ^ e : ℕ) : ℚ) := by
      norm_cast
    have hpow_cast : ((10 ^ e : ℕ) : ℚ) = (10 : ℚ) ^ e := by
      push_cast
      ring
    rw [hcc]
    have hv2 : v = ((n : ℕ) : ℚ) / ((10 ^ e : ℕ) : ℚ) := by
      rw [hpow_cast, hnq, mul_div_assoc,
        div_self (by positivity : ((10 : ℚ)) ^ e ≠ 0), mul_one]
    rw [hv2, eq_div_iff h10', add_mul, div_mul_cancel₀ _ h10']
    norm_cast
    exact Nat.div_add_mod' n (10 ^ e)
  simp only [Cleaning.num_with_suffix_to_float, hstrip, if_neg hne, hsg,
    multOf, qMul_one, hval]

/-! ## Exception-freedom lemmas (C4) -/

theorem num_wsf_exc_ok (s : List Char) :
    Cleaning.num_with_suffix_to_float_exc s =
      Except.ok (Cleaning.num_with_suffix_to_float s) := by
  simp only [Cleaning.num_with_suffix_to_float_exc, Cleaning.num_with_suffix_to_float]
  by_cases h0 : stripList s = []
  · simp [h0]
  · rw [if_neg h0, if_neg h0]
    cases hg : strictGroups (stripList s) with
    | some v =>
      obtain ⟨⟨d1, d2⟩, suf⟩ := v
      rfl
    | none =>
      cases hf : pyFloatOfString (stripList s) <;>
        simp [tryNan, pyFloatExc, hf]

theorem collectValsExc_ok (ps : List (List Char)) :
    Cleaning.collectValsExc ps = Except.ok (ps.filterMap (fun p =>
      (searchTok p).map (fun t =>
        Cleaning.num_with_suffix_to_float (removeSpaces (render t))))) := by
  induction ps with
  | nil => rfl
  | cons p ps ih =>
    simp only [Cleaning.collectValsExc, List.filterMap_cons]
    cases hs : searchTok p with
    | none => simpa using ih
    | some t => simp [num_wsf_exc_ok, ih]

theorem extractValsExc_ok (ts : List NumTok) :
    Cleaning.extractValsExc ts = Except.ok ((ts.map (fun t =>
      Cleaning.num_with_suffix_to_float (removeSpaces (render t)))).filter
        (fun v => ¬ isNan v)) := by
  induction ts with
  | nil => rfl
  | cons t ts ih =>
    simp only [Cleaning.extractValsExc, num_wsf_exc_ok, ih, List.map_cons,
      List.filter_cons]
    cases hn : isNan (Cleaning.num_with_suffix_to_float (removeSpaces (render t))) <;>
      simp [hn]

/-- C4: with every fallible primitive (`float`, division) made explicit,
the three cleaning.py functions always terminate normally with the value of
the pure embedding — no exception reaches the caller on any input. -/
theorem C4_no_exception_escapes :
    (∀ s : String, Cleaning.num_with_suffix_to_float_exc s.data =
      Except.ok (Cleaning.num_with_suffix_to_float s.data)) ∧
    (∀ c : RawCell,
      Cleaning.parse_price_exc c = Except.ok (Cleaning.parse_price c)) ∧
    (∀ c : RawCell,
      Cleaning.extract_number_exc c = Except.ok (Cleaning.extract_number c)) := by
  refine ⟨fun s => num_wsf_exc_ok s.data, ?_, ?_⟩
  · intro c
    cases c with
    | nonStr => rfl
    | str s =>
      show Cleaning.parse_price_exc (RawCell.str s) =
        Except.ok (Cleaning.parse_price_str s.data)
      simp only [Cleaning.parse_price_exc, Cleaning.parse_price_str]
      by_cases h0 : stripList s.data = []
      · simp [h0]
      · rw [if_neg h0, if_neg h0]
        by_cases h1 : '-' ∈ removeCurrency (stripList s.data)
        · rw [if_pos h1, if_pos h1, collectValsExc_ok]
          set vals := (((splitHyphen (removeCurrency (stripList s.data))).map
            stripList).filter (fun p => p ≠ [])).filterMap (fun p =>
              (searchTok p).map (fun t =>
                Cleaning.num_with_suffix_to_float (removeSpaces (render t))))
            with hvals
          by_cases hv : vals = []
          · simp [hv]
          · change (if vals = [] then Except.ok PyFloat.nan
              else divExc (pySum vals) vals.length) = _
            rw [if_neg hv, if_neg hv, divExc,
              if_neg (fun hl => hv (List.length_eq_zero.mp hl))]
        · rw [if_neg h1, if_neg h1]
          cases hs : searchTok (removeCurrency (stripList s.data)) with
          | none => rfl
          | some t => exact num_wsf_exc_ok _
  · intro c
    cases c with
    | nonStr => rfl
    | str s =>
      show Cleaning.extract_number_exc (RawCell.str s) =
        Except.ok (Cleaning.extract_number_str s.data)
      simp only [Cleaning.extract_number_exc, Cleaning.extract_number_str]
      by_cases h0 : stripList s.data = []
      · simp [h0]
      · rw [if_neg h0, if_neg h0]
        by_cases ht : findAllTok ((stripList s.data).map
            (fun c => if c = ',' then ' ' else c)) = []
        · simp [ht]
        · rw [if_neg ht, if_neg ht, extractValsExc_ok]
          set vals := ((findAllTok ((stripList s.data).map
            (fun c => if c = ',' then ' ' else c))).map (fun t =>
              Cleaning.num_with_suffix_to_float (removeSpaces (render t)))).filter
            (fun v => ¬ isNan v) with hvals
          by_cases hv : vals = []
          · simp [hv]
          · change (if vals = [] then Except.ok PyFloat.nan
              else divExc (pySum vals) vals.length) = _
            rw [if_neg hv, if_neg hv, divExc,
              if_neg (fun hl => hv (List.length_eq_zero.mp hl))]

/-- C1 counterexample: the Token Value Parser returns positive infinity on
the input `"inf"` (the grammar fails, and the `float(s)` fallback accepts
the literal), which is neither the Missing marker nor a finite float — so
the no-non-finite invariant is false as stated. -/
theorem C1_counterexample :
    Cleaning.num_with_suffix_to_float "inf".data = PyFloat.inf ∧
    PyFloat.inf ≠ PyFloat.nan ∧ ∀ q : ℚ, PyFloat.inf ≠ PyFloat.fin q := by
  refine ⟨by decide, by decide, fun q h => ?_⟩
  cases h

/-- C1 amended: each function returns the Missing marker or a float value,
and there is no overflow or finiteness check anywhere: when the anchored
grammar fails, the Token Value Parser returns the `float(s)` result
unchanged, non-finite values included — `+inf` on `"inf"`, `-inf` on
`"-inf"` — so nothing ever collapses a non-finite value to Missing. -/
theorem C1_amended :
    (∀ (s : List Char) (v : PyFloat), stripList s ≠ [] →
      strictGroups (stripList s) = none →
      pyFloatOfString (stripList s) = some v →
      Cleaning.num_with_suffix_to_float s = v) ∧
    Cleaning.num_with_suffix_to_float "inf".data = PyFloat.inf ∧
    Cleaning.num_with_suffix_to_float "-inf".data = PyFloat.ninf := by
  refine ⟨?_, by decide, by decide⟩
  intro s v hne hg hv
  simp only [Cleaning.num_with_suffix_to_float, if_neg hne, hg, hv,
    Option.getD_some]

/-- C1 amended witness: the pass-through of the `float(s)` fallback applied
at the concrete input `"inf"`. -/
theorem C1_amended_witness :
    stripList "inf".data ≠ [] ∧
    strictGroups (stripList "inf".data) = none ∧
    pyFloatOfString (stripList "inf".data) = some PyFloat.inf ∧
    Cleaning.num_with_suffix_to_float "inf".data = PyFloat.inf :=
  ⟨by decide, by decide, by decide,
    C1_amended.1 "inf".data PyFloat.inf (by decide) (by decide) (by decide)⟩

/-- C2: on a cleaned string containing a hyphen, `cleaning.parse_price`
implements the documented range rule — split on `-`, drop blank segments,
parse the first grammar substring of each remaining segment with the Token
Value Parser, return the mean of the successfully parsed values (Missing if
none) — and in particular maps `"$12,000-$15,000"` to `13500.0`. -/
theorem C2_range_midpoint (s : String)
    (h : '-' ∈ removeCurrency (stripList s.data)) :
    Cleaning.parse_price (RawCell.str s) = rangeMeanSpec s.data ∧
    Cleaning.parse_price (RawCell.str "$12,000-$15,000") = PyFloat.fin 13500 := by
  refine ⟨?_, by decide⟩
  have h0 : stripList s.data ≠ [] := by
    intro he
    rw [he] at h
    simp [removeCurrency] at h
  show Cleaning.parse_price_str s.data = rangeMeanSpec s.data
  simp only [Cleaning.parse_price_str, rangeMeanSpec, if_neg h0, if_pos h,
    segVals_eq, segValsSpec_eq]
  set L := (((splitHyphen (removeCurrency (stripList s.data))).map stripList).filter
    (fun p => p ≠ [])).filterMap (fun p => (searchTok p).map tokValue) with hL
  by_cases hLe : L = []
  · simp [hLe]
  · rw [if_neg (by simpa using hLe), if_neg hLe, pySum_map_fin, List.length_map]
    rfl

/-- C2 witness: the range rule applied at the concrete input `"1-3"`. -/
theorem C2_range_midpoint_witness :
    Cleaning.parse_price (RawCell.str "1-3") = rangeMeanSpec "1-3".data ∧
    Cleaning.parse_price (RawCell.str "$12,000-$15,000") = PyFloat.fin 13500 :=
  C2_range_midpoint "1-3" (by decide)

/-- C6: `cleaning.extract_number` implements the documented multi-value
contract — commas become whitespace, all grammar substrings are parsed by
the Token Value Parser, failures are discarded, and the mean of the parsed
values is returned (Missing if none) — and in particular maps `"350 HP"` to
`350.0` and `"300-350"` to `325.0`. -/
theorem C6_multi_value_mean :
    (∀ s : String, Cleaning.extract_number (RawCell.str s) = extractMeanSpec s.data) ∧
    Cleaning.extract_number (RawCell.str "350 HP") = PyFloat.fin 350 ∧
    Cleaning.extract_number (RawCell.str "300-350") = PyFloat.fin 325 := by
  refine ⟨?_, by decide, by decide⟩
  intro s
  show Cleaning.extract_number_str s.data = extractMeanSpec s.data
  by_cases h0 : stripList s.data = []
  · simp [Cleaning.extract_number_str, extractMeanSpec, h0]
  · simp only [Cleaning.extract_number_str, extractMeanSpec, if_neg h0]
    set toks := findAllTok ((stripList s.data).map
      (fun c => if c = ',' then ' ' else c)) with htoks
    by_cases hte : toks = []
    · simp [hte]
    · rw [if_neg hte]
      rw [tokVals_eq _ (fun t ht => findAllTok_wf ht),
        tokValsSpec_eq _ (fun t ht => findAllTok_wf ht)]
      have hmne : toks.map tokValue ≠ [] := by simpa using hte
      rw [if_neg (by simpa using hmne), if_neg hmne, pySum_map_fin,
        List.length_map]
      rfl

/-- C7: for every token whose (stripped) text matches the anchored grammar
with suffix in {none, k, K, m, M}, the Token Value Parser yields the
canonical float, and serializing that float to its decimal string form and
re-parsing yields the same float (round-trip idempotence). -/
theorem C7_roundtrip (t : String) (d1 : List Char) (d2 : Option (List Char))
    (suf : Option Char)
    (h : strictGroups (stripList t.data) = some ((d1, d2), suf)) :
    Cleaning.num_with_suffix_to_float t.data =
      PyFloat.fin (qMul (numVal d1 d2) (multOf suf)) ∧
    Cleaning.num_with_suffix_to_float
        (serializeDecimal (qMul (numVal d1 d2) (multOf suf))) =
      PyFloat.fin (qMul (numVal d1 d2) (multOf suf)) := by
  constructor
  · have hne : stripList t.data ≠ [] := by
      intro he
      rw [he] at h
      simp [strictGroups, numAtParts] at h
    simp only [Cleaning.num_with_suffix_to_float, if_neg hne, h]
  · have hv : 0 ≤ qMul (numVal d1 d2) (multOf suf) := by
      rw [qMul_eq]
      exact mul_nonneg (numVal_nonneg _ _) (multOf_nonneg _)
    exact serialize_roundtrip _ hv
      (dvd_ten_pow _ (qMul (numVal d1 d2) (multOf suf)).den_pos
        (tokVal_den_dvd d1 d2 suf))

/-- C7 witness: the round trip at the concrete token `"1.2k"`. -/
theorem C7_roundtrip_witness :
    Cleaning.num_with_suffix_to_float "1.2k".data =
      PyFloat.fin (qMul (numVal ['1'] (some ['2'])) (multOf (some 'k'))) ∧
    Cleaning.num_with_suffix_to_float
        (serializeDecimal (qMul (numVal ['1'] (some ['2'])) (multOf (some 'k')))) =
      PyFloat.fin (qMul (numVal ['1'] (some ['2'])) (multOf (some 'k'))) :=
  C7_roundtrip "1.2k" ['1'] (some ['2']) (some 'k') (by decide)

/-- C10: `cleaning.parse_price` and `cleaning.extract_number` only ever
produce the Missing marker or a non-negative finite value; in particular a
leading minus acts as a range delimiter, `parse_price "-500" = 500.0`. -/
theorem C10_nonnegative :
    (∀ c : RawCell, Cleaning.parse_price c = PyFloat.nan ∨
      ∃ q, Cleaning.parse_price c = PyFloat.fin q ∧ 0 ≤ q) ∧
    (∀ c : RawCell, Cleaning.extract_number c = PyFloat.nan ∨
      ∃ q, Cleaning.extract_number c = PyFloat.fin q ∧ 0 ≤ q) ∧
    Cleaning.parse_price (RawCell.str "-500") = PyFloat.fin 500 := by
  refine ⟨?_, ?_, by decide⟩
  · intro c
    cases c with
    | nonStr => exact Or.inl rfl
    | str s => exact parse_price_str_shape s.data
  · intro c
    cases c with
    | nonStr => exact Or.inl rfl
    | str s => exact extract_number_str_shape s.data

/-- C3: every trimmed token string matching the anchored grammar
`^([0-9]*\.?[0-9]+)\s*([kKmM]?)$` is parsed by the Token Value Parser to the
numeric part times the suffix multiplier (1000 for k/K, 1000000 for m/M,
1 otherwise); in particular `"500" → 500.0`, `"1.2k" → 1200.0`,
`"3M" → 3000000.0`. -/
theorem C3_token_grammar (s d1 : List Char) (d2 : Option (List Char))
    (suf : Option Char) (hs : stripList s = s)
    (h : strictGroups s = some ((d1, d2), suf)) :
    Cleaning.num_with_suffix_to_float s = PyFloat.fin (qMul (numVal d1 d2) (multOf suf)) ∧
    Cleaning.num_with_suffix_to_float "500".data = PyFloat.fin 500 ∧
    Cleaning.num_with_suffix_to_float "1.2k".data = PyFloat.fin 1200 ∧
    Cleaning.num_with_suffix_to_float "3M".data = PyFloat.fin 3000000 := by
  refine ⟨?_, by decide, by decide, by decide⟩
  have hne : s ≠ [] := by
    intro he
    rw [he] at h
    simp [strictGroups, numAtParts] at h
  simp only [Cleaning.num_with_suffix_to_float, hs, if_neg hne, h]

/-- C3 witness: the theorem applied at the concrete token `"1.2k"`. -/
theorem C3_token_grammar_witness :
    Cleaning.num_with_suffix_to_float "1.2k".data =
      PyFloat.fin (qMul (numVal ['1'] (some ['2'])) (multOf (some 'k'))) :=
  (C3_token_grammar "1.2k".data ['1'] (some ['2']) (some 'k')
    (by decide) (by decide)).1

/-- C5: a non-string cell, and any string that trims to empty, is mapped to
the Missing marker by both `cleaning.parse_price` and
`cleaning.extract_number`. -/
theorem C5_missing_inputs (s : String) (h : stripList s.data = []) :
    Cleaning.parse_price (RawCell.str s) = PyFloat.nan ∧
    Cleaning.extract_number (RawCell.str s) = PyFloat.nan ∧
    Cleaning.parse_price RawCell.nonStr = PyFloat.nan ∧
    Cleaning.extract_number RawCell.nonStr = PyFloat.nan := by
  refine ⟨?_, ?_, rfl, rfl⟩
  · simp [Cleaning.parse_price, Cleaning.parse_price_str, h]
  · simp [Cleaning.extract_number, Cleaning.extract_number_str, h]

/-- C5 witness: the theorem applied at the whitespace-only string `" "`. -/
theorem C5_missing_inputs_witness :
    stripList " ".data = [] ∧
    Cleaning.parse_price (RawCell.str " ") = PyFloat.nan ∧
    Cleaning.extract_number (RawCell.str " ") = PyFloat.nan ∧
    Cleaning.parse_price RawCell.nonStr = PyFloat.nan ∧
    Cleaning.extract_number RawCell.nonStr = PyFloat.nan :=
  ⟨by decide, C5_missing_inputs " " (by decide)⟩

/-- C8: the two parser families are not extensionally equal: the
`parse_price` pair differs on `"$1.2k"` (suffix handling), and the
`extract_number` pair differs both on `"300-350"` (range vs sign semantics)
and on `"1,234"` (comma semantics). -/
theorem C8_not_extensionally_equal :
    (Cleaning.parse_price (RawCell.str "$1.2k") = PyFloat.fin 1200 ∧
     MLPipeline.parse_price (RawCell.str "$1.2k") = PyFloat.fin (mkRat 6 5) ∧
     Cleaning.parse_price (RawCell.str "$1.2k") ≠
       MLPipeline.parse_price (RawCell.str "$1.2k")) ∧
    (Cleaning.extract_number (RawCell.str "300-350") = PyFloat.fin 325 ∧
     MLPipeline.extract_number (RawCell.str "300-350") = PyFloat.fin (-25) ∧
     Cleaning.extract_number (RawCell.str "300-350") ≠
       MLPipeline.extract_number (RawCell.str "300-350")) ∧
    (Cleaning.extract_number (RawCell.str "1,234") = PyFloat.fin (mkRat 235 2) ∧
     MLPipeline.extract_number (RawCell.str "1,234") = PyFloat.fin 1234 ∧
     Cleaning.extract_number (RawCell.str "1,234") ≠
       MLPipeline.extract_number (RawCell.str "1,234")) := by
  decide

/-- C9: `ml_pipeline.extract_number` reads the interior hyphen of
`"300-350"` as a minus sign: it averages `300.0` and `-350.0` to `-25.0`,
a negative output for text containing only unsigned-looking numbers. -/
theorem C9_hyphen_as_sign :
    MLPipeline.extract_number (RawCell.str "300-350") = PyFloat.fin (-25) ∧
    ∃ q : ℚ, MLPipeline.extract_number (RawCell.str "300-350") = PyFloat.fin q ∧
      q < 0 :=
  ⟨by decide, ⟨-25, by decide, by norm_num⟩⟩

end PP
